import Mathlib

/-!
Verification of the FoundationDB tuple-layer codec (`src/foundationdb/src/tuple/mod.rs`).

The repository's `tuple` module provides:
- an error enumeration `Error` (EOF / InvalidType / InvalidData / FromUtf8Error);
- an aggregate tuple codec `Value` (a `Vec<item::Value>`) whose `encode` writes each
  item in order and whose `decode` repeatedly decodes items until the buffer is empty;
- fixed-arity tuple adapters (macro `tuple_impls`, arities 1..12) that decode each
  field in order and then demand that the buffer is exhausted, failing with
  `InvalidData` otherwise.

The per-item codec lives in `src/foundationdb/src/tuple/item.rs`, which is declared
(`pub mod item;`) but not part of the excerpt; it is modelled here from the spec
(sections 4.1 and 6): tag 0 = unit, tag 1 = byte string, tag 2 = unicode text
(both with `0x00 -> 0x00 0xFF` escaping and a `0x00` terminator), tag 5 = nested
tuple, tags `20 - n .. 20 + n` (`ZERO_TAG = 20`, `n = 1..8`) = integers with `n`
big-endian magnitude bytes, negative values stored as the ones-complement offset
`2^(8n) - 1 - |value|`.  Bytes are modelled as `Nat` (well-formed values keep them
below 256), buffers as `List Nat`, and fallible decoding as `Except Error`.
The decoders take an explicit fuel argument so that they are structurally
recursive; wrappers instantiate the fuel with a value proved sufficient below.
-/

/-- Decidable equality for `Except`, needed to evaluate decoder results on
concrete inputs. -/
instance {ε α : Type} [DecidableEq ε] [DecidableEq α] : DecidableEq (Except ε α)
  | .ok a, .ok b =>
    if h : a = b then .isTrue (by rw [h]) else .isFalse (by simp [h])
  | .error a, .error b =>
    if h : a = b then .isTrue (by rw [h]) else .isFalse (by simp [h])
  | .ok _, .error _ => .isFalse (by simp)
  | .error _, .ok _ => .isFalse (by simp)

namespace FdbTuple

/-- The error enumeration of `tuple/mod.rs` (`Error`): `EOF` ("Unexpected end of
file"), `InvalidType { value }`, `InvalidData`, `FromUtf8Error`. -/
inductive Error where
  | EOF
  | InvalidType (value : Nat)
  | InvalidData
  | FromUtf8Error
deriving DecidableEq

namespace item

/-- Modelled from the spec: the polymorphic item type `item::Value` (spec section 3),
with the variants whose wire format the spec fixes (section 6): unit/null, byte
string, unicode text (kept as its UTF-8 byte sequence), nested tuple, and signed
integer.  The excerpt reserves no tag bytes for booleans or floats, so those
variants are outside the modelled wire format. -/
inductive Value where
  | unit
  | bytes (b : List Nat)
  | text (t : List Nat)
  | nested (vs : List Value)
  | int (i : Int)

mutual

/-- Boolean structural equality on items (used to build decidable equality). -/
def beqV : Value → Value → Bool
  | .unit, .unit => true
  | .bytes a, .bytes b => a = b
  | .text a, .text b => a = b
  | .nested a, .nested b => beqL a b
  | .int a, .int b => a = b
  | _, _ => false

/-- Boolean structural equality on item lists. -/
def beqL : List Value → List Value → Bool
  | [], [] => true
  | a :: as, b :: bs => beqV a b && beqL as bs
  | _, _ => false

end

mutual

theorem beqV_iff : ∀ a b : Value, beqV a b = true ↔ a = b
  | .unit, .unit => by simp [beqV]
  | .unit, .bytes _ => by simp [beqV]
  | .unit, .text _ => by simp [beqV]
  | .unit, .nested _ => by simp [beqV]
  | .unit, .int _ => by simp [beqV]
  | .bytes _, .unit => by simp [beqV]
  | .bytes _, .bytes _ => by simp [beqV]
  | .bytes _, .text _ => by simp [beqV]
  | .bytes _, .nested _ => by simp [beqV]
  | .bytes _, .int _ => by simp [beqV]
  | .text _, .unit => by simp [beqV]
  | .text _, .bytes _ => by simp [beqV]
  | .text _, .text _ => by simp [beqV]
  | .text _, .nested _ => by simp [beqV]
  | .text _, .int _ => by simp [beqV]
  | .nested _, .unit => by simp [beqV]
  | .nested _, .bytes _ => by simp [beqV]
  | .nested _, .text _ => by simp [beqV]
  | .nested a, .nested b => by simp [beqV, beqL_iff a b]
  | .nested _, .int _ => by simp [beqV]
  | .int _, .unit => by simp [beqV]
  | .int _, .bytes _ => by simp [beqV]
  | .int _, .text _ => by simp [beqV]
  | .int _, .nested _ => by simp [beqV]
  | .int _, .int _ => by simp [beqV]

theorem beqL_iff : ∀ a b : List Value, beqL a b = true ↔ a = b
  | [], [] => by simp [beqL]
  | [], _ :: _ => by simp [beqL]
  | _ :: _, [] => by simp [beqL]
  | a :: as, b :: bs => by simp [beqL, beqV_iff a b, beqL_iff as bs]

end

instance : DecidableEq Value := fun a b => decidable_of_iff _ (beqV_iff a b)

mutual

/-- Well-formedness of an item ("representable" in the spec's sense): byte-string
and text bytes fit in a byte, integer magnitudes fit the 8 magnitude bytes the
wire format reserves (spec section 6), nested items are well-formed. -/
def wfV : Value → Bool
  | .unit => true
  | .bytes bs => bs.all (fun b => b < 256)
  | .text ts => ts.all (fun b => b < 256)
  | .nested vs => wfL vs
  | .int i => decide (i.natAbs < 256 ^ 8)

/-- Well-formedness of a list of items. -/
def wfL : List Value → Bool
  | [] => true
  | v :: vs => wfV v && wfL vs

end

/-- Modelled from the spec: `0x00 -> 0x00 0xFF` escaping of string payload bytes
(spec section 4.1). -/
def escape : List Nat → List Nat
  | [] => []
  | c :: cs => if c = 0 then 0 :: 255 :: escape cs else c :: escape cs

/-- Modelled from the spec: the minimal number of big-endian magnitude bytes
needed to represent a magnitude (spec section 4.1: "The magnitude-byte count is
the minimum needed to represent the value").  The wire format reserves at most 8
magnitude bytes (section 6), so magnitudes of 9 bytes and beyond are not
representable; the final branch is never reached for well-formed items. -/
def byteLen (m : Nat) : Nat :=
  if m = 0 then 0
  else if m < 256 then 1
  else if m < 256 ^ 2 then 2
  else if m < 256 ^ 3 then 3
  else if m < 256 ^ 4 then 4
  else if m < 256 ^ 5 then 5
  else if m < 256 ^ 6 then 6
  else if m < 256 ^ 7 then 7
  else if m < 256 ^ 8 then 8
  else 9

/-- The `n` big-endian base-256 digits of `m` (most significant first). -/
def beBytes : Nat → Nat → List Nat
  | 0, _ => []
  | n + 1, m => (m / 256 ^ n) :: beBytes n (m % 256 ^ n)

/-- The value of a big-endian byte list. -/
def beVal (l : List Nat) : Nat := l.foldl (fun a b => a * 256 + b) 0

/-- Modelled from the spec: integer encoding (spec section 4.1).  `ZERO_TAG = 20`
encodes 0 with no payload; a positive integer with `n` magnitude bytes gets tag
`20 + n` followed by the big-endian magnitude; a negative integer with `n`
magnitude bytes gets tag `20 - n` followed by `256^n - 1 - |value|` rendered
big-endian. -/
def encInt (i : Int) : List Nat :=
  if i = 0 then [20]
  else if 0 < i then
    (20 + byteLen i.natAbs) :: beBytes (byteLen i.natAbs) i.natAbs
  else
    (20 - byteLen i.natAbs) :: beBytes (byteLen i.natAbs) (256 ^ byteLen i.natAbs - 1 - i.natAbs)

mutual

/-- Modelled from the spec: `item::Encode` for `item::Value` (spec sections 4.1
and 6): tag 0 for unit, tag 1 / tag 2 followed by the escaped payload and a
`0x00` terminator for byte strings / text, tag 5 followed by the encodings of
the members and a `0x00` terminator for nested tuples, and the integer scheme of
`encInt`. -/
def Value.encode : Value → List Nat
  | .unit => [0]
  | .bytes bs => 1 :: (escape bs ++ [0])
  | .text ts => 2 :: (escape ts ++ [0])
  | .nested vs => 5 :: (encL vs ++ [0])
  | .int i => encInt i

/-- Modelled from the spec: the members of a nested tuple, concatenated; a unit
member is escaped as `0x00 0xFF` so that the nested tuple's `0x00` terminator
stays unambiguous (spec section 4.1's escaping discipline applied to the one
item encoding that starts with `0x00`). -/
def encL : List Value → List Nat
  | [] => []
  | .unit :: vs => 0 :: 255 :: encL vs
  | v :: vs => Value.encode v ++ encL vs

end

/-- Modelled from the spec: decoding of an escaped, `0x00`-terminated string
payload.  Returns the unescaped payload and the number of bytes consumed
(including the terminator); fails with `EOF` when the buffer ends before an
unescaped `0x00`. -/
def decodeEsc : List Nat → Except Error (List Nat × Nat)
  | [] => .error .EOF
  | c :: rest =>
    if c = 0 then
      match rest with
      | r :: rest2 =>
        if r = 255 then
          match decodeEsc rest2 with
          | .error e => .error e
          | .ok (p, k) => .ok (0 :: p, k + 2)
        else .ok ([], 1)
      | [] => .ok ([], 1)
    else
      match decodeEsc rest with
      | .error e => .error e
      | .ok (p, k) => .ok (c :: p, k + 1)

mutual

/-- Modelled from the spec: `item::Decode` for `item::Value` (spec sections 4.1
and 4.4), with an explicit fuel argument for structural recursion.  Reads the
tag byte and dispatches: unit, escaped strings, nested tuples, and integers
(`n = |tag - 20|` further big-endian payload bytes, `EOF` if fewer remain,
negative values recovered from their ones-complement offset); unknown tags fail
with `InvalidType`.  Returns the item and the number of bytes consumed. -/
def decodeItemF : Nat → List Nat → Except Error (Value × Nat)
  | _, [] => .error .EOF
  | 0, _ :: _ => .error .EOF
  | f + 1, c :: rest =>
    if c = 0 then .ok (.unit, 1)
    else if c = 1 then
      match decodeEsc rest with
      | .error e => .error e
      | .ok (p, k) => .ok (.bytes p, k + 1)
    else if c = 2 then
      match decodeEsc rest with
      | .error e => .error e
      | .ok (p, k) => .ok (.text p, k + 1)
    else if c = 5 then
      match decodeNestedF f rest with
      | .error e => .error e
      | .ok (vs, k) => .ok (.nested vs, k + 1)
    else if c = 20 then .ok (.int 0, 1)
    else if 20 < c ∧ c ≤ 28 then
      if rest.length < c - 20 then .error .EOF
      else .ok (.int (beVal (rest.take (c - 20))), (c - 20) + 1)
    else if 12 ≤ c ∧ c < 20 then
      if rest.length < 20 - c then .error .EOF
      else .ok (.int ((beVal (rest.take (20 - c)) : Int) - (256 ^ (20 - c) - 1)), (20 - c) + 1)
    else .error (.InvalidType c)

/-- Modelled from the spec: decoding of a nested tuple's members.  An unescaped
`0x00` terminates the list; `0x00 0xFF` is an escaped unit member; any other
leading byte starts an ordinary item, decoded recursively.  Returns the members
and the number of bytes consumed (including the terminator). -/
def decodeNestedF : Nat → List Nat → Except Error (List Value × Nat)
  | _, [] => .error .EOF
  | 0, _ :: _ => .error .EOF
  | f + 1, c :: rest =>
    if c = 0 then
      match rest with
      | r :: rest2 =>
        if r = 255 then
          match decodeNestedF f rest2 with
          | .error e => .error e
          | .ok (vs, k) => .ok (.unit :: vs, k + 2)
        else .ok ([], 1)
      | [] => .ok ([], 1)
    else
      match decodeItemF f (c :: rest) with
      | .error e => .error e
      | .ok (v, k) =>
        match decodeNestedF f ((c :: rest).drop k) with
        | .error e => .error e
        | .ok (vs, k2) => .ok (v :: vs, k + k2)

end

/-- Modelled from the spec: `item::Decode::decode(buffer) -> (Value, consumed)`.
The fuel `2 * buf.length + 1` is sufficient (proved below), so this wrapper is
the total single-item decoder. -/
def decode (buf : List Nat) : Except Error (Value × Nat) :=
  decodeItemF (2 * buf.length + 1) buf

/-- Constructor rank of an item, in the order induced by the tag bytes:
unit (0) < byte string (1) < text (2) < nested tuple (5) < integer (12..28). -/
def rank : Value → Nat
  | .unit => 0
  | .bytes _ => 1
  | .text _ => 2
  | .nested _ => 3
  | .int _ => 4

/-- Lexicographic strict order on byte strings (a proper prefix is smaller). -/
def lexLtB : List Nat → List Nat → Bool
  | _, [] => false
  | [], _ :: _ => true
  | a :: as, b :: bs => decide (a < b) || (decide (a = b) && lexLtB as bs)

mutual

/-- The natural component-wise strict order on items (spec section 3's
order-preservation invariant): variants ordered by their tag ranges, integers by
numeric value, byte strings and text lexicographically by codepoint/byte, nested
tuples recursively. -/
def ltV : Value → Value → Bool
  | .unit, .unit => false
  | .bytes a, .bytes b => lexLtB a b
  | .text a, .text b => lexLtB a b
  | .nested a, .nested b => ltL a b
  | .int a, .int b => decide (a < b)
  | a, b => decide (rank a < rank b)

/-- Lexicographic strict order on item sequences (a proper prefix is smaller). -/
def ltL : List Value → List Value → Bool
  | _, [] => false
  | [], _ :: _ => true
  | a :: as, b :: bs => ltV a b || (beqV a b && ltL as bs)

end

end item

/-- The aggregate tuple value of `tuple/mod.rs`: `pub struct Value(pub Vec<item::Value>)`. -/
def Value : Type := List item.Value

instance : DecidableEq Value := inferInstanceAs (DecidableEq (List item.Value))

/-- `impl Encode for Value` (`tuple/mod.rs` lines 108-116): encode each item in
order into one contiguous buffer. -/
def Value.encode (v : Value) : List Nat :=
  v.foldl (fun acc x => acc ++ x.encode) []

/-- `impl Decode for Value` (`tuple/mod.rs` lines 118-129), with fuel for
structural recursion: while the buffer is non-empty, decode one item and advance
by the consumed length. -/
def Value.decodeF : Nat → List Nat → Except Error Value
  | _, [] => .ok []
  | 0, _ :: _ => .error .EOF
  | f + 1, c :: rest =>
    match item.decode (c :: rest) with
    | .error e => .error e
    | .ok (v, k) =>
      match Value.decodeF f ((c :: rest).drop k) with
      | .error e => .error e
      | .ok vs => .ok (v :: vs)

/-- `Value::decode`: the loop needs at most one iteration per buffer byte
(each item consumes at least one byte, proved below), so fuel `buf.length`
is sufficient. -/
def Value.decode (buf : List Nat) : Except Error Value :=
  Value.decodeF buf.length buf

/-- The fixed-arity encoder of the `tuple_impls` macro (`tuple/mod.rs` lines
52-63): each field encoded in declaration order. -/
def encodeFixed (fields : List item.Value) : List Nat :=
  fields.foldl (fun acc x => acc ++ x.encode) []

/-- The fixed-arity decoder of the `tuple_impls` macro (`tuple/mod.rs` lines
65-85): decode one item per field, advancing through the buffer, and fail with
`InvalidData` if bytes remain after the last field.  The macro instantiates
arities 1 through 12; the arity is the `n` argument here. -/
def decodeFixed : Nat → List Nat → Except Error (List item.Value)
  | 0, buf => if buf = [] then .ok [] else .error .InvalidData
  | n + 1, buf =>
    match item.decode buf with
    | .error e => .error e
    | .ok (v, k) =>
      match decodeFixed n (buf.drop k) with
      | .error e => .error e
      | .ok vs => .ok (v :: vs)

/-- Specification device: decode exactly `n` consecutive items (no exhaustion
check), returning them and the total number of bytes consumed.  This is "all `n`
fields decode successfully" in the claims about the fixed-arity adapter. -/
def decodeN : Nat → List Nat → Except Error (List item.Value × Nat)
  | 0, _ => .ok ([], 0)
  | n + 1, buf =>
    match item.decode buf with
    | .error e => .error e
    | .ok (v, k) =>
      match decodeN n (buf.drop k) with
      | .error e => .error e
      | .ok (vs, k2) => .ok (v :: vs, k + k2)

/-- A byte list whose head, if any, is below `0xFF`.  Every continuation that can
follow a complete item encoding inside a tuple buffer has this shape (it is
empty, or starts with a tag byte `≤ 28`, or with a `0x00` terminator), and the
string/nested comparison arguments rely on it. -/
def TailOk : List Nat → Prop
  | [] => True
  | h :: _ => h < 255

namespace item

theorem lexLtB_irrefl : ∀ l : List Nat, lexLtB l l = false
  | [] => rfl
  | a :: as => by simp [lexLtB, lexLtB_irrefl as]

theorem lexLtB_append_same : ∀ (x s t : List Nat), lexLtB (x ++ s) (x ++ t) = lexLtB s t
  | [], s, t => rfl
  | a :: x, s, t => by simp [lexLtB, lexLtB_append_same x s t]

theorem byteLen_zero : byteLen 0 = 0 := rfl

theorem byteLen_pos (m : Nat) (h : m ≠ 0) : 1 ≤ byteLen m := by
  simp only [byteLen]
  split_ifs <;> omega

theorem byteLen_le8 (m : Nat) (h : m < 256 ^ 8) : byteLen m ≤ 8 := by
  simp only [byteLen]
  split_ifs <;> omega

theorem byteLen_upper (m : Nat) (h : m < 256 ^ 8) : m < 256 ^ byteLen m := by
  simp only [byteLen]
  split_ifs <;> norm_num <;> omega

theorem byteLen_lower (m : Nat) (h : m ≠ 0) : 256 ^ (byteLen m - 1) ≤ m := by
  simp only [byteLen]
  split_ifs <;> norm_num <;> omega

theorem byteLen_min (m n : Nat) (h : m < 256 ^ n) : byteLen m ≤ n := by
  by_cases h0 : m = 0
  · subst h0
    simp [byteLen_zero]
  · by_contra hlt
    push_neg at hlt
    have h1 : 256 ^ n ≤ 256 ^ (byteLen m - 1) :=
      Nat.pow_le_pow_right (by norm_num) (by omega)
    have h2 := byteLen_lower m h0
    omega

theorem beBytes_length : ∀ (n m : Nat), (beBytes n m).length = n
  | 0, _ => rfl
  | n + 1, m => by simp [beBytes, beBytes_length n]

theorem beVal_aux : ∀ (n m a : Nat), m < 256 ^ n →
    (beBytes n m).foldl (fun x b => x * 256 + b) a = a * 256 ^ n + m
  | 0, m, a, h => by
      simp only [beBytes, List.foldl_nil, pow_zero]
      omega
  | n + 1, m, a, h => by
      have hlt : m % 256 ^ n < 256 ^ n := Nat.mod_lt _ (Nat.pos_pow_of_pos n (by norm_num))
      have ih := beVal_aux n (m % 256 ^ n) (a * 256 + m / 256 ^ n) hlt
      simp only [beBytes, List.foldl_cons, ih]
      have hdm := Nat.div_add_mod m (256 ^ n)
      rw [pow_succ]
      set P := 256 ^ n
      set q := m / P
      set r := m % P
      rw [← hdm]
      ring

theorem beVal_beBytes (n m : Nat) (h : m < 256 ^ n) : beVal (beBytes n m) = m := by
  have := beVal_aux n m 0 h
  simpa [beVal] using this

theorem lt_iff_div_mod (P x y : Nat) (hP : 0 < P) :
    x < y ↔ (x / P < y / P ∨ (x / P = y / P ∧ x % P < y % P)) := by
  have hx := Nat.div_add_mod x P
  have hy := Nat.div_add_mod y P
  have hxm := Nat.mod_lt x hP
  have hym := Nat.mod_lt y hP
  constructor
  · intro h
    have hdle : x / P ≤ y / P := Nat.div_le_div_right h.le
    rcases Nat.eq_or_lt_of_le hdle with he | hlt
    · refine Or.inr ⟨he, ?_⟩
      rw [he] at hx
      omega
    · exact Or.inl hlt
  · intro h
    rcases h with h1 | ⟨h1, h2⟩
    · have hm : P * (x / P + 1) ≤ P * (y / P) := Nat.mul_le_mul_left P (by omega)
      rw [Nat.mul_succ] at hm
      omega
    · rw [h1] at hx
      omega

theorem eq_iff_div_mod (P x y : Nat) (_hP : 0 < P) :
    x = y ↔ (x / P = y / P ∧ x % P = y % P) := by
  have hx := Nat.div_add_mod x P
  have hy := Nat.div_add_mod y P
  constructor
  · intro h
    subst h
    exact ⟨rfl, rfl⟩
  · intro ⟨h1, h2⟩
    rw [h1] at hx
    omega

theorem beBytes_compare : ∀ (n x y : Nat), x < 256 ^ n → y < 256 ^ n → ∀ s t : List Nat,
    lexLtB (beBytes n x ++ s) (beBytes n y ++ t) =
      (decide (x < y) || (decide (x = y) && lexLtB s t))
  | 0, x, y, hx, hy, s, t => by
      have hx0 : x = 0 := by simpa using hx
      have hy0 : y = 0 := by simpa using hy
      subst hx0
      subst hy0
      simp [beBytes]
  | n + 1, x, y, hx, hy, s, t => by
      have hP : 0 < 256 ^ n := Nat.pos_pow_of_pos n (by norm_num)
      have hxm : x % 256 ^ n < 256 ^ n := Nat.mod_lt _ hP
      have hym : y % 256 ^ n < 256 ^ n := Nat.mod_lt _ hP
      have ih := beBytes_compare n (x % 256 ^ n) (y % 256 ^ n) hxm hym s t
      have hlt := lt_iff_div_mod (256 ^ n) x y hP
      have heq := eq_iff_div_mod (256 ^ n) x y hP
      simp only [beBytes, List.cons_append, lexLtB, ih]
      by_cases h1 : x / 256 ^ n < y / 256 ^ n
      · have hxy : x < y := hlt.mpr (Or.inl h1)
        simp [h1, hxy]
      · by_cases h2 : x / 256 ^ n = y / 256 ^ n
        · have e1 : (x < y) = (x % 256 ^ n < y % 256 ^ n) := by
            rw [hlt]
            simp [h1, h2]
          have e2 : (x = y) = (x % 256 ^ n = y % 256 ^ n) := by
            rw [heq]
            simp [h2]
          simp only [e1, e2]
          simp [h1, h2]
          exact ih
        · have hxy : ¬ x < y := by
            rw [hlt]
            push_neg
            exact ⟨by omega, fun h => absurd h h2⟩
          have hne : x ≠ y := fun he => h2 (heq.mp he).1
          simp [h1, h2, hxy, hne]

theorem escape_compare : ∀ (u v s t : List Nat), TailOk s → TailOk t →
    lexLtB ((escape u ++ (0 :: s))) ((escape v ++ (0 :: t))) =
      (lexLtB u v || (decide (u = v) && lexLtB s t))
  | [], [], s, t, hs, ht => by simp [escape, lexLtB]
  | [], b :: v', s, t, hs, ht => by
      by_cases hb : b = 0
      · subst hb
        cases s with
        | nil => simp [escape, lexLtB]
        | cons h s' =>
            have hh : h < 255 := hs
            simp [escape, lexLtB, hh, Nat.ne_of_lt hh]
      · simp [escape, lexLtB, hb, Nat.pos_of_ne_zero hb]
  | a :: u', [], s, t, hs, ht => by
      by_cases ha : a = 0
      · subst ha
        cases t with
        | nil => simp [escape, lexLtB]
        | cons h t' =>
            have hh : h < 255 := ht
            simp [escape, lexLtB, Nat.lt_asymm hh, (Nat.ne_of_lt hh).symm]
      · simp [escape, lexLtB, ha, Nat.pos_of_ne_zero ha]
  | a :: u', b :: v', s, t, hs, ht => by
      have ih := escape_compare u' v' s t hs ht
      by_cases ha : a = 0 <;> by_cases hb : b = 0
      · subst ha
        subst hb
        simpa [escape, lexLtB] using ih
      · subst ha
        simp [escape, lexLtB, hb, Nat.pos_of_ne_zero hb]
      · subst hb
        simp [escape, lexLtB, ha, Nat.pos_of_ne_zero ha]
      · simp only [escape, if_neg ha, if_neg hb, List.cons_append, lexLtB, ih]
        by_cases hab : a < b
        · simp [hab]
        · by_cases hab2 : a = b
          · simp [hab, hab2]
          · simp [hab, hab2]

theorem encInt_neg (i : Int) (h : i < 0) :
    encInt i = (20 - byteLen i.natAbs) ::
      beBytes (byteLen i.natAbs) (256 ^ byteLen i.natAbs - 1 - i.natAbs) := by
  rw [encInt, if_neg (by omega), if_neg (by omega)]

theorem encInt_pos (i : Int) (h : 0 < i) :
    encInt i = (20 + byteLen i.natAbs) :: beBytes (byteLen i.natAbs) i.natAbs := by
  rw [encInt, if_neg (by omega), if_pos h]

theorem encInt_compare (i j : Int) (hi : i.natAbs < 256 ^ 8) (hj : j.natAbs < 256 ^ 8)
    (s t : List Nat) :
    lexLtB (encInt i ++ s) (encInt j ++ t) =
      (decide (i < j) || (decide (i = j) && lexLtB s t)) := by
  rcases lt_trichotomy i 0 with hi0 | hi0 | hi0 <;>
    rcases lt_trichotomy j 0 with hj0 | hj0 | hj0
  · -- i < 0, j < 0
    have hni1 : 1 ≤ byteLen i.natAbs := byteLen_pos _ (by omega)
    have hni8 : byteLen i.natAbs ≤ 8 := byteLen_le8 _ hi
    have hnj1 : 1 ≤ byteLen j.natAbs := byteLen_pos _ (by omega)
    have hnj8 : byteLen j.natAbs ≤ 8 := byteLen_le8 _ hj
    have hui : i.natAbs < 256 ^ byteLen i.natAbs := byteLen_upper _ hi
    have huj : j.natAbs < 256 ^ byteLen j.natAbs := byteLen_upper _ hj
    rw [encInt_neg i hi0, encInt_neg j hj0]
    simp only [List.cons_append, lexLtB, List.append_eq]
    rcases lt_trichotomy (byteLen i.natAbs) (byteLen j.natAbs) with hn | hn | hn
    · have hlow := byteLen_lower j.natAbs (by omega)
      have hmm : i.natAbs < j.natAbs := by
        have h1 : (256:Nat) ^ byteLen i.natAbs ≤ 256 ^ (byteLen j.natAbs - 1) :=
          Nat.pow_le_pow_right (by norm_num) (by omega)
        omega
      simp [show ¬ (20 - byteLen i.natAbs < 20 - byteLen j.natAbs) from by omega,
            show ¬ (20 - byteLen i.natAbs = 20 - byteLen j.natAbs) from by omega,
            show ¬ i < j from by omega, show ¬ i = j from by omega]
    · rw [← hn] at huj
      have hxb : 256 ^ byteLen i.natAbs - 1 - i.natAbs < 256 ^ byteLen i.natAbs := by
        have := Nat.pos_pow_of_pos (byteLen i.natAbs) (show 0 < 256 by norm_num)
        omega
      have hyb : 256 ^ byteLen i.natAbs - 1 - j.natAbs < 256 ^ byteLen i.natAbs := by
        have := Nat.pos_pow_of_pos (byteLen i.natAbs) (show 0 < 256 by norm_num)
        omega
      rw [← hn]
      rw [beBytes_compare _ _ _ hxb hyb s t]
      have e1 : (256 ^ byteLen i.natAbs - 1 - i.natAbs <
          256 ^ byteLen i.natAbs - 1 - j.natAbs) ↔ (i < j) := by omega
      have e2 : (256 ^ byteLen i.natAbs - 1 - i.natAbs =
          256 ^ byteLen i.natAbs - 1 - j.natAbs) ↔ (i = j) := by omega
      simp [e1, e2]
    · have hlow := byteLen_lower i.natAbs (by omega)
      have hmm : j.natAbs < i.natAbs := by
        have h1 : (256:Nat) ^ byteLen j.natAbs ≤ 256 ^ (byteLen i.natAbs - 1) :=
          Nat.pow_le_pow_right (by norm_num) (by omega)
        omega
      simp [show 20 - byteLen i.natAbs < 20 - byteLen j.natAbs from by omega,
            show i < j from by omega]
  · -- i < 0, j = 0
    subst hj0
    have hni1 : 1 ≤ byteLen i.natAbs := byteLen_pos _ (by omega)
    have hni8 : byteLen i.natAbs ≤ 8 := byteLen_le8 _ hi
    rw [encInt_neg i hi0, show encInt 0 = [20] from rfl]
    simp only [List.cons_append, lexLtB]
    simp [show 20 - byteLen i.natAbs < 20 from by omega, hi0]
  · -- i < 0, 0 < j
    have hni1 : 1 ≤ byteLen i.natAbs := byteLen_pos _ (by omega)
    have hni8 : byteLen i.natAbs ≤ 8 := byteLen_le8 _ hi
    rw [encInt_neg i hi0, encInt_pos j hj0]
    simp only [List.cons_append, lexLtB]
    simp [show 20 - byteLen i.natAbs < 20 + byteLen j.natAbs from by omega,
          show i < j from by omega]
  · -- i = 0, j < 0
    subst hi0
    have hnj1 : 1 ≤ byteLen j.natAbs := byteLen_pos _ (by omega)
    have hnj8 : byteLen j.natAbs ≤ 8 := byteLen_le8 _ hj
    rw [encInt_neg j hj0, show encInt 0 = [20] from rfl]
    simp only [List.cons_append, lexLtB]
    simp [show ¬ (20 < 20 - byteLen j.natAbs) from by omega,
          show ¬ (20 = 20 - byteLen j.natAbs) from by omega,
          show ¬ (0:Int) < j from by omega, show ¬ (0:Int) = j from by omega]
  · -- i = 0, j = 0
    subst hi0
    subst hj0
    rw [show encInt 0 = [20] from rfl]
    simp [lexLtB]
  · -- i = 0, 0 < j
    subst hi0
    have hnj1 : 1 ≤ byteLen j.natAbs := byteLen_pos _ (by omega)
    rw [encInt_pos j hj0, show encInt 0 = [20] from rfl]
    simp only [List.cons_append, lexLtB]
    simp [show 20 < 20 + byteLen j.natAbs from by omega, hj0]
  · -- 0 < i, j < 0
    have hni1 : 1 ≤ byteLen i.natAbs := byteLen_pos _ (by omega)
    have hnj1 : 1 ≤ byteLen j.natAbs := byteLen_pos _ (by omega)
    have hnj8 : byteLen j.natAbs ≤ 8 := byteLen_le8 _ hj
    rw [encInt_pos i hi0, encInt_neg j hj0]
    simp only [List.cons_append, lexLtB]
    simp [show ¬ (20 + byteLen i.natAbs < 20 - byteLen j.natAbs) from by omega,
          show ¬ (20 + byteLen i.natAbs = 20 - byteLen j.natAbs) from by omega,
          show ¬ i < j from by omega, show ¬ i = j from by omega]
  · -- 0 < i, j = 0
    subst hj0
    have hni1 : 1 ≤ byteLen i.natAbs := byteLen_pos _ (by omega)
    rw [encInt_pos i hi0, show encInt 0 = [20] from rfl]
    simp only [List.cons_append, lexLtB]
    simp [show ¬ (20 + byteLen i.natAbs < 20) from by omega,
          show ¬ (20 + byteLen i.natAbs = 20) from by omega,
          show ¬ i < 0 from by omega, show ¬ i = 0 from by omega]
  · -- 0 < i, 0 < j
    have hni1 : 1 ≤ byteLen i.natAbs := byteLen_pos _ (by omega)
    have hni8 : byteLen i.natAbs ≤ 8 := byteLen_le8 _ hi
    have hnj1 : 1 ≤ byteLen j.natAbs := byteLen_pos _ (by omega)
    have hnj8 : byteLen j.natAbs ≤ 8 := byteLen_le8 _ hj
    have hui : i.natAbs < 256 ^ byteLen i.natAbs := byteLen_upper _ hi
    have huj : j.natAbs < 256 ^ byteLen j.natAbs := byteLen_upper _ hj
    rw [encInt_pos i hi0, encInt_pos j hj0]
    simp only [List.cons_append, lexLtB, List.append_eq]
    rcases lt_trichotomy (byteLen i.natAbs) (byteLen j.natAbs) with hn | hn | hn
    · have hlow := byteLen_lower j.natAbs (by omega)
      have hmm : i.natAbs < j.natAbs := by
        have h1 : (256:Nat) ^ byteLen i.natAbs ≤ 256 ^ (byteLen j.natAbs - 1) :=
          Nat.pow_le_pow_right (by norm_num) (by omega)
        omega
      simp [show 20 + byteLen i.natAbs < 20 + byteLen j.natAbs from by omega,
            show i < j from by omega]
    · rw [← hn] at huj
      rw [← hn]
      rw [beBytes_compare _ _ _ hui huj s t]
      have e1 : (i.natAbs < j.natAbs) ↔ (i < j) := by omega
      have e2 : (i.natAbs = j.natAbs) ↔ (i = j) := by omega
      simp [e1, e2]
    · have hlow := byteLen_lower i.natAbs (by omega)
      have hmm : j.natAbs < i.natAbs := by
        have h1 : (256:Nat) ^ byteLen j.natAbs ≤ 256 ^ (byteLen i.natAbs - 1) :=
          Nat.pow_le_pow_right (by norm_num) (by omega)
        omega
      simp [show ¬ (20 + byteLen i.natAbs < 20 + byteLen j.natAbs) from by omega,
            show ¬ (20 + byteLen i.natAbs = 20 + byteLen j.natAbs) from by omega,
            show ¬ i < j from by omega, show ¬ i = j from by omega]

/-- Smallest tag byte an item's encoding can start with. -/
def tagLo : Value → Nat
  | .unit => 0
  | .bytes _ => 1
  | .text _ => 2
  | .nested _ => 5
  | .int _ => 12

/-- Largest tag byte an item's encoding can start with. -/
def tagHi : Value → Nat
  | .unit => 0
  | .bytes _ => 1
  | .text _ => 2
  | .nested _ => 5
  | .int _ => 28

theorem tagHi_le (v : Value) : tagHi v ≤ 28 := by
  cases v <;> simp [tagHi]

theorem encInt_head (i : Int) (hi : i.natAbs < 256 ^ 8) :
    ∃ tg tl, encInt i = tg :: tl ∧ 12 ≤ tg ∧ tg ≤ 28 := by
  rcases lt_trichotomy i 0 with h | h | h
  · have h1 := byteLen_pos i.natAbs (by omega)
    have h2 := byteLen_le8 i.natAbs hi
    exact ⟨_, _, encInt_neg i h, by omega, by omega⟩
  · subst h
    exact ⟨20, [], rfl, by omega, by omega⟩
  · have h1 := byteLen_pos i.natAbs (by omega)
    have h2 := byteLen_le8 i.natAbs hi
    exact ⟨_, _, encInt_pos i h, by omega, by omega⟩

theorem encode_head (v : Value) (hv : wfV v = true) :
    ∃ tg tl, Value.encode v = tg :: tl ∧ tagLo v ≤ tg ∧ tg ≤ tagHi v := by
  cases v with
  | unit => exact ⟨0, [], rfl, by simp [tagLo], by simp [tagHi]⟩
  | bytes bs => exact ⟨1, _, rfl, by simp [tagLo], by simp [tagHi]⟩
  | text ts => exact ⟨2, _, rfl, by simp [tagLo], by simp [tagHi]⟩
  | nested vs => exact ⟨5, _, rfl, by simp [tagLo], by simp [tagHi]⟩
  | int i =>
      simp only [wfV, decide_eq_true_eq] at hv
      obtain ⟨tg, tl, he, h1, h2⟩ := encInt_head i hv
      exact ⟨tg, tl, by simp [Value.encode, he], by simp [tagLo]; omega,
        by simp [tagHi]; omega⟩

theorem encL_cons_ne (v : Value) (vs : List Value) (h : ¬ v = Value.unit) :
    encL (v :: vs) = Value.encode v ++ encL vs := by
  cases v with
  | unit => exact absurd rfl h
  | bytes bs => rfl
  | text ts => rfl
  | nested ws => rfl
  | int i => rfl

theorem tailOk_flatten (A : List Value) (hA : wfL A = true) (s : List Nat)
    (hs : FdbTuple.TailOk s) : FdbTuple.TailOk ((A.map Value.encode).flatten ++ s) := by
  cases A with
  | nil => simpa using hs
  | cons a A' =>
      have hv : wfV a = true := by
        simp only [wfL, Bool.and_eq_true] at hA
        exact hA.1
      obtain ⟨tg, tl, he, h1, h2⟩ := encode_head a hv
      have h3 := tagHi_le a
      simp only [List.map_cons, List.flatten_cons, he, List.cons_append, List.append_assoc]
      show tg < 255
      omega

theorem tailOk_encL (A : List Value) (s : List Nat) (hA : wfL A = true) :
    FdbTuple.TailOk (encL A ++ (0 :: s)) := by
  cases A with
  | nil =>
      show (0:Nat) < 255
      norm_num
  | cons a A' =>
      by_cases ha : a = Value.unit
      · subst ha
        show (0:Nat) < 255
        norm_num
      · have hv : wfV a = true := by
          simp only [wfL, Bool.and_eq_true] at hA
          exact hA.1
        obtain ⟨tg, tl, he, h1, h2⟩ := encode_head a hv
        have h3 := tagHi_le a
        rw [encL_cons_ne a A' ha]
        simp only [he, List.cons_append, List.append_assoc]
        show tg < 255
        omega

theorem sizeOfV_pos (v : Value) : 0 < sizeOf v := by
  cases v <;> simp

theorem tagLo_pos (v : Value) (h : ¬ v = Value.unit) : 1 ≤ tagLo v := by
  cases v with
  | unit => exact absurd rfl h
  | bytes bs => simp [tagLo]
  | text ts => simp [tagLo]
  | nested vs => simp [tagLo]
  | int i => simp [tagLo]

theorem ltV_unit_left (b : Value) (h : ¬ b = Value.unit) : ltV Value.unit b = true := by
  cases b with
  | unit => exact absurd rfl h
  | bytes bs => simp [ltV, rank]
  | text ts => simp [ltV, rank]
  | nested vs => simp [ltV, rank]
  | int i => simp [ltV, rank]

theorem ltV_unit_right (b : Value) (h : ¬ b = Value.unit) : ltV b Value.unit = false := by
  cases b with
  | unit => exact absurd rfl h
  | bytes bs => simp [ltV, rank]
  | text ts => simp [ltV, rank]
  | nested vs => simp [ltV, rank]
  | int i => simp [ltV, rank]

theorem beqV_unit_left (b : Value) (h : ¬ b = Value.unit) : beqV Value.unit b = false := by
  cases b with
  | unit => exact absurd rfl h
  | bytes bs => simp [beqV]
  | text ts => simp [beqV]
  | nested vs => simp [beqV]
  | int i => simp [beqV]

theorem beqV_unit_right (b : Value) (h : ¬ b = Value.unit) : beqV b Value.unit = false := by
  cases b with
  | unit => exact absurd rfl h
  | bytes bs => simp [beqV]
  | text ts => simp [beqV]
  | nested vs => simp [beqV]
  | int i => simp [beqV]

/-- The joint order-preservation statement, proved by induction on a size bound:
for items (with arbitrary continuations whose head is not `0xFF`) and for nested
member lists (between their `0x00` terminators), byte-wise comparison of
encodings agrees with the value ordering, with ties broken by the
continuations. -/
theorem compare_main : ∀ N : Nat,
    (∀ v w : Value, sizeOf v + sizeOf w ≤ N → wfV v = true → wfV w = true →
      ∀ s t : List Nat, FdbTuple.TailOk s → FdbTuple.TailOk t →
      lexLtB (Value.encode v ++ s) (Value.encode w ++ t) =
        (ltV v w || (beqV v w && lexLtB s t))) ∧
    (∀ A B : List Value, sizeOf A + sizeOf B ≤ N → wfL A = true → wfL B = true →
      ∀ s t : List Nat, FdbTuple.TailOk s → FdbTuple.TailOk t →
      lexLtB (encL A ++ (0 :: s)) (encL B ++ (0 :: t)) =
        (ltL A B || (beqL A B && lexLtB s t))) := by
  intro N
  induction N with
  | zero =>
      constructor
      · intro v w hsz _ _ _ _ _ _
        have := sizeOfV_pos v
        omega
      · intro A B hsz _ _ _ _ _ _
        have h1 : 0 < sizeOf A := by cases A <;> simp
        omega
  | succ N ih =>
      obtain ⟨ih1, ih2⟩ := ih
      constructor
      · intro v w hsz hv hw s t hs ht
        cases v with
        | unit =>
            cases w with
            | unit => simp [Value.encode, lexLtB, ltV, beqV]
            | bytes b => simp [Value.encode, lexLtB, ltV, beqV, rank]
            | text b => simp [Value.encode, lexLtB, ltV, beqV, rank]
            | nested B => simp [Value.encode, lexLtB, ltV, beqV, rank]
            | int j =>
                have hbj : j.natAbs < 256 ^ 8 := by simpa [wfV] using hw
                obtain ⟨tg, tl, he, h1, h2⟩ := encInt_head j hbj
                simp [Value.encode, he, lexLtB, ltV, beqV, rank,
                  show (0:Nat) < tg from by omega]
        | bytes a =>
            cases w with
            | unit => simp [Value.encode, lexLtB, ltV, beqV, rank]
            | bytes b =>
                simp only [Value.encode, List.cons_append, lexLtB, List.append_eq]
                rw [List.append_assoc, List.append_assoc]
                simp only [List.singleton_append]
                rw [escape_compare a b s t hs ht]
                simp [ltV, beqV]
            | text b => simp [Value.encode, lexLtB, ltV, beqV, rank]
            | nested B => simp [Value.encode, lexLtB, ltV, beqV, rank]
            | int j =>
                have hbj : j.natAbs < 256 ^ 8 := by simpa [wfV] using hw
                obtain ⟨tg, tl, he, h1, h2⟩ := encInt_head j hbj
                simp [Value.encode, he, lexLtB, ltV, beqV, rank,
                  show (1:Nat) < tg from by omega]
        | text a =>
            cases w with
            | unit => simp [Value.encode, lexLtB, ltV, beqV, rank]
            | bytes b => simp [Value.encode, lexLtB, ltV, beqV, rank]
            | text b =>
                simp only [Value.encode, List.cons_append, lexLtB, List.append_eq]
                rw [List.append_assoc, List.append_assoc]
                simp only [List.singleton_append]
                rw [escape_compare a b s t hs ht]
                simp [ltV, beqV]
            | nested B => simp [Value.encode, lexLtB, ltV, beqV, rank]
            | int j =>
                have hbj : j.natAbs < 256 ^ 8 := by simpa [wfV] using hw
                obtain ⟨tg, tl, he, h1, h2⟩ := encInt_head j hbj
                simp [Value.encode, he, lexLtB, ltV, beqV, rank,
                  show (2:Nat) < tg from by omega]
        | nested A =>
            cases w with
            | unit => simp [Value.encode, lexLtB, ltV, beqV, rank]
            | bytes b => simp [Value.encode, lexLtB, ltV, beqV, rank]
            | text b => simp [Value.encode, lexLtB, ltV, beqV, rank]
            | nested B =>
                have hszn : sizeOf A + sizeOf B ≤ N := by
                  simp only [Value.nested.sizeOf_spec] at hsz
                  omega
                have hA : wfL A = true := by simpa [wfV] using hv
                have hB : wfL B = true := by simpa [wfV] using hw
                simp only [Value.encode, List.cons_append, lexLtB, List.append_eq]
                rw [List.append_assoc, List.append_assoc]
                simp only [List.singleton_append]
                rw [ih2 A B hszn hA hB s t hs ht]
                simp [ltV, beqV]
            | int j =>
                have hbj : j.natAbs < 256 ^ 8 := by simpa [wfV] using hw
                obtain ⟨tg, tl, he, h1, h2⟩ := encInt_head j hbj
                simp [Value.encode, he, lexLtB, ltV, beqV, rank,
                  show (5:Nat) < tg from by omega]
        | int i =>
            have hbi : i.natAbs < 256 ^ 8 := by simpa [wfV] using hv
            obtain ⟨tg, tl, he, h1, h2⟩ := encInt_head i hbi
            cases w with
            | unit =>
                simp [Value.encode, he, lexLtB, ltV, beqV, rank,
                  show ¬ tg = 0 from by omega]
            | bytes b =>
                simp [Value.encode, he, lexLtB, ltV, beqV, rank,
                  show ¬ tg < 1 from by omega, show ¬ tg = 1 from by omega]
            | text b =>
                simp [Value.encode, he, lexLtB, ltV, beqV, rank,
                  show ¬ tg < 2 from by omega, show ¬ tg = 2 from by omega]
            | nested B =>
                simp [Value.encode, he, lexLtB, ltV, beqV, rank,
                  show ¬ tg < 5 from by omega, show ¬ tg = 5 from by omega]
            | int j =>
                have hbj : j.natAbs < 256 ^ 8 := by simpa [wfV] using hw
                simp only [Value.encode]
                rw [encInt_compare i j hbi hbj s t]
                simp [ltV, beqV]
      · intro A B hsz hA hB s t hs ht
        cases A with
        | nil =>
            cases B with
            | nil => simp [encL, lexLtB, ltL, beqL]
            | cons b B' =>
                by_cases hb : b = Value.unit
                · subst hb
                  cases s with
                  | nil => simp [encL, lexLtB, ltL, beqL]
                  | cons h s' =>
                      have hh : h < 255 := hs
                      simp [encL, lexLtB, ltL, beqL, hh, Nat.ne_of_lt hh]
                · have hvb : wfV b = true := by
                    simp only [wfL, Bool.and_eq_true] at hB
                    exact hB.1
                  obtain ⟨tg, tl, he, h1, h2⟩ := encode_head b hvb
                  have htg := tagLo_pos b hb
                  rw [encL_cons_ne b B' hb]
                  simp [he, lexLtB, ltL, beqL, show (0:Nat) < tg from by omega]
        | cons a A' =>
            cases B with
            | nil =>
                by_cases ha : a = Value.unit
                · subst ha
                  cases t with
                  | nil => simp [encL, lexLtB, ltL, beqL]
                  | cons h t' =>
                      have hh : h < 255 := ht
                      simp [encL, lexLtB, ltL, beqL, Nat.lt_asymm hh,
                        (Nat.ne_of_lt hh).symm]
                · have hva : wfV a = true := by
                    simp only [wfL, Bool.and_eq_true] at hA
                    exact hA.1
                  obtain ⟨tg, tl, he, h1, h2⟩ := encode_head a hva
                  have htg := tagLo_pos a ha
                  rw [encL_cons_ne a A' ha]
                  simp [he, lexLtB, ltL, beqL, show ¬ tg = 0 from by omega]
            | cons b B' =>
                have hva : wfV a = true := by
                  simp only [wfL, Bool.and_eq_true] at hA
                  exact hA.1
                have hA' : wfL A' = true := by
                  simp only [wfL, Bool.and_eq_true] at hA
                  exact hA.2
                have hvb : wfV b = true := by
                  simp only [wfL, Bool.and_eq_true] at hB
                  exact hB.1
                have hB' : wfL B' = true := by
                  simp only [wfL, Bool.and_eq_true] at hB
                  exact hB.2
                have hpa := sizeOfV_pos a
                have hpb := sizeOfV_pos b
                by_cases ha : a = Value.unit <;> by_cases hb : b = Value.unit
                · subst ha
                  subst hb
                  have hsz' : sizeOf A' + sizeOf B' ≤ N := by
                    simp only [List.cons.sizeOf_spec] at hsz
                    omega
                  simp only [encL, List.cons_append, lexLtB, List.append_eq]
                  rw [ih2 A' B' hsz' hA' hB' s t hs ht]
                  simp [ltL, ltV, beqL, beqV]
                · subst ha
                  obtain ⟨tg, tl, he, h1, h2⟩ := encode_head b hvb
                  have htg := tagLo_pos b hb
                  rw [encL_cons_ne b B' hb]
                  simp [encL, he, lexLtB, ltL, beqL, ltV_unit_left b hb,
                    beqV_unit_left b hb, show (0:Nat) < tg from by omega]
                · subst hb
                  obtain ⟨tg, tl, he, h1, h2⟩ := encode_head a hva
                  have htg := tagLo_pos a ha
                  rw [encL_cons_ne a A' ha]
                  simp [encL, he, lexLtB, ltL, beqL, ltV_unit_right a ha,
                    beqV_unit_right a ha, show ¬ tg = 0 from by omega]
                · have hsz1 : sizeOf a + sizeOf b ≤ N := by
                    simp only [List.cons.sizeOf_spec] at hsz
                    omega
                  have hsz2 : sizeOf A' + sizeOf B' ≤ N := by
                    simp only [List.cons.sizeOf_spec] at hsz
                    omega
                  rw [encL_cons_ne a A' ha, encL_cons_ne b B' hb]
                  rw [List.append_assoc, List.append_assoc]
                  rw [ih1 a b hsz1 hva hvb (encL A' ++ (0 :: s)) (encL B' ++ (0 :: t))
                    (tailOk_encL A' s hA') (tailOk_encL B' t hB')]
                  rw [ih2 A' B' hsz2 hA' hB' s t hs ht]
                  simp only [ltL, beqL]
                  cases h1 : ltV a b <;> cases h2 : beqV a b <;>
                    cases h3 : ltL A' B' <;> cases h4 : beqL A' B' <;>
                    cases h5 : lexLtB s t <;> rfl

theorem encode_ne_nil (v : Value) : Value.encode v ≠ [] := by
  cases v with
  | unit => simp [Value.encode]
  | bytes bs => simp [Value.encode]
  | text ts => simp [Value.encode]
  | nested vs => simp [Value.encode]
  | int i =>
      simp only [Value.encode, encInt]
      split_ifs <;> simp

theorem decodeEsc_escape : ∀ (u : List Nat) (s : List Nat), FdbTuple.TailOk s →
    decodeEsc (escape u ++ (0 :: s)) = .ok (u, (escape u).length + 1)
  | [], s, hs => by
      cases s with
      | nil => simp [escape, decodeEsc]
      | cons h s' =>
          have hh : h < 255 := hs
          simp [escape, decodeEsc, Nat.ne_of_lt hh]
  | 0 :: u', s, hs => by
      have ih := decodeEsc_escape u' s hs
      simp [escape, decodeEsc, ih]
  | (c + 1) :: u', s, hs => by
      have ih := decodeEsc_escape u' s hs
      rw [escape]
      rw [if_neg (Nat.succ_ne_zero c)]
      rw [List.cons_append, decodeEsc.eq_def]
      simp [ih]

theorem decodeItemF_encInt (f : Nat) (i : Int) (hi : i.natAbs < 256 ^ 8) (s : List Nat) :
    decodeItemF (f + 1) (encInt i ++ s) = .ok (.int i, (encInt i).length) := by
  rcases lt_trichotomy i 0 with h | h | h
  · have hn1 : 1 ≤ byteLen i.natAbs := byteLen_pos _ (by omega)
    have hn8 : byteLen i.natAbs ≤ 8 := byteLen_le8 _ hi
    have hup : i.natAbs < 256 ^ byteLen i.natAbs := byteLen_upper _ hi
    have hpow : 0 < 256 ^ byteLen i.natAbs := Nat.pos_pow_of_pos _ (by norm_num)
    rw [encInt_neg i h]
    simp only [List.cons_append, decodeItemF]
    rw [if_neg (by omega), if_neg (by omega), if_neg (by omega), if_neg (by omega),
      if_neg (by omega), if_neg (by omega),
      if_pos (show 12 ≤ 20 - byteLen i.natAbs ∧ 20 - byteLen i.natAbs < 20 from by omega)]
    have hnn : 20 - (20 - byteLen i.natAbs) = byteLen i.natAbs := by omega
    rw [hnn]
    have hlen : ¬ ((beBytes (byteLen i.natAbs) (256 ^ byteLen i.natAbs - 1 - i.natAbs) ++ s).length
        < byteLen i.natAbs) := by
      rw [List.length_append, beBytes_length]
      omega
    rw [if_neg hlen]
    have htake : (beBytes (byteLen i.natAbs) (256 ^ byteLen i.natAbs - 1 - i.natAbs) ++ s).take
        (byteLen i.natAbs) = beBytes (byteLen i.natAbs) (256 ^ byteLen i.natAbs - 1 - i.natAbs) := by
      have h2 := List.take_left (beBytes (byteLen i.natAbs)
        (256 ^ byteLen i.natAbs - 1 - i.natAbs)) s
      rwa [beBytes_length] at h2
    rw [htake, beVal_beBytes _ _ (by omega)]
    have hcast : ((256 ^ byteLen i.natAbs - 1 - i.natAbs : Nat) : Int) =
        (256 : Int) ^ byteLen i.natAbs - 1 - (i.natAbs : Int) := by
      rw [Nat.cast_sub (by omega), Nat.cast_sub (by omega), Nat.cast_pow]
      norm_num
    have habs : (i.natAbs : Int) = -i := by omega
    rw [hcast, habs]
    have hv : (256 : Int) ^ byteLen i.natAbs - 1 - -i - (256 ^ byteLen i.natAbs - 1) = i := by
      ring
    rw [hv]
    simp [beBytes_length]
  · subst h
    simp [decodeItemF, encInt]
  · have hn1 : 1 ≤ byteLen i.natAbs := byteLen_pos _ (by omega)
    have hn8 : byteLen i.natAbs ≤ 8 := byteLen_le8 _ hi
    have hup : i.natAbs < 256 ^ byteLen i.natAbs := byteLen_upper _ hi
    rw [encInt_pos i h]
    simp only [List.cons_append, decodeItemF]
    rw [if_neg (by omega), if_neg (by omega), if_neg (by omega), if_neg (by omega),
      if_neg (by omega),
      if_pos (show 20 < 20 + byteLen i.natAbs ∧ 20 + byteLen i.natAbs ≤ 28 from by omega)]
    have hnn : 20 + byteLen i.natAbs - 20 = byteLen i.natAbs := by omega
    rw [hnn]
    have hlen : ¬ ((beBytes (byteLen i.natAbs) i.natAbs ++ s).length < byteLen i.natAbs) := by
      rw [List.length_append, beBytes_length]
      omega
    rw [if_neg hlen]
    have htake : (beBytes (byteLen i.natAbs) i.natAbs ++ s).take (byteLen i.natAbs) =
        beBytes (byteLen i.natAbs) i.natAbs := by
      have h2 := List.take_left (beBytes (byteLen i.natAbs) i.natAbs) s
      rwa [beBytes_length] at h2
    rw [htake, beVal_beBytes _ _ hup]
    have habs : ((i.natAbs : Nat) : Int) = i := by omega
    rw [habs]
    simp [beBytes_length]

/-- The joint round-trip statement, by induction on fuel: with sufficient fuel,
decoding an item encoding (with any continuation whose head is not `0xFF`)
returns the item and its encoded length, and likewise for nested member lists
followed by their terminator. -/
theorem roundtrip_main : ∀ f : Nat,
    (∀ (v : Value) (s : List Nat), wfV v = true → FdbTuple.TailOk s →
      2 * (Value.encode v ++ s).length ≤ f →
      decodeItemF f (Value.encode v ++ s) = .ok (v, (Value.encode v).length)) ∧
    (∀ (A : List Value) (s : List Nat), wfL A = true → FdbTuple.TailOk s →
      2 * (encL A ++ (0 :: s)).length + 1 ≤ f →
      decodeNestedF f (encL A ++ (0 :: s)) = .ok (A, (encL A).length + 1)) := by
  intro f
  induction f with
  | zero =>
      constructor
      · intro v s hv hs hf
        exfalso
        cases he : Value.encode v with
        | nil => exact absurd he (encode_ne_nil v)
        | cons c tl =>
            rw [he] at hf
            simp [List.length_append] at hf
      · intro A s hA hs hf
        exfalso
        simp [List.length_append] at hf
  | succ f ih =>
      obtain ⟨ihP, ihQ⟩ := ih
      constructor
      · intro v s hv hs hf
        cases v with
        | unit => simp [Value.encode, decodeItemF]
        | bytes bs =>
            simp only [Value.encode, List.cons_append, List.append_assoc,
              List.singleton_append]
            simp [decodeItemF, decodeEsc_escape bs s hs]
        | text ts =>
            simp only [Value.encode, List.cons_append, List.append_assoc,
              List.singleton_append]
            simp [decodeItemF, decodeEsc_escape ts s hs]
        | nested A =>
            have hA : wfL A = true := by simpa [wfV] using hv
            have hfq : 2 * (encL A ++ (0 :: s)).length + 1 ≤ f := by
              simp only [Value.encode, List.cons_append, List.length_cons,
                List.length_append, List.singleton_append] at hf ⊢
              omega
            simp only [Value.encode, List.cons_append, List.append_assoc,
              List.singleton_append]
            simp [decodeItemF, ihQ A s hA hs hfq]
        | int i =>
            have hbi : i.natAbs < 256 ^ 8 := by simpa [wfV] using hv
            exact decodeItemF_encInt f i hbi s
      · intro A s hA hs hf
        cases A with
        | nil =>
            cases s with
            | nil => simp [encL, decodeNestedF]
            | cons h s' =>
                have hh : h < 255 := hs
                simp [encL, decodeNestedF, Nat.ne_of_lt hh]
        | cons a A' =>
            have hva : wfV a = true := by
              simp only [wfL, Bool.and_eq_true] at hA
              exact hA.1
            have hA' : wfL A' = true := by
              simp only [wfL, Bool.and_eq_true] at hA
              exact hA.2
            by_cases ha : a = Value.unit
            · subst ha
              have hfq : 2 * (encL A' ++ (0 :: s)).length + 1 ≤ f := by
                simp only [encL, List.cons_append, List.length_cons,
                  List.length_append] at hf ⊢
                omega
              simp only [encL, List.cons_append]
              simp [decodeNestedF, ihQ A' s hA' hs hfq, encL]
            · obtain ⟨tg, tl, he, h1, h2⟩ := encode_head a hva
              have htg := tagLo_pos a ha
              have hfP : 2 * (Value.encode a ++ (encL A' ++ (0 :: s))).length ≤ f := by
                rw [encL_cons_ne a A' ha] at hf
                simp only [List.cons_append, List.length_cons, List.length_append] at hf ⊢
                omega
              have hfq : 2 * (encL A' ++ (0 :: s)).length + 1 ≤ f := by
                rw [encL_cons_ne a A' ha] at hf
                have hp : 1 ≤ (Value.encode a).length := by
                  cases hee : Value.encode a with
                  | nil => exact absurd hee (encode_ne_nil a)
                  | cons c tl2 => simp
                simp only [List.cons_append, List.length_cons, List.length_append] at hf ⊢
                omega
              have hstep := ihP a (encL A' ++ (0 :: s)) hva (tailOk_encL A' s hA') hfP
              have hq := ihQ A' s hA' hs hfq
              have hdrop : ((Value.encode a ++ (encL A' ++ (0 :: s)))).drop
                  (Value.encode a).length = encL A' ++ (0 :: s) :=
                List.drop_left _ _
              rw [encL_cons_ne a A' ha, List.append_assoc, he]
              rw [he] at hstep hdrop
              simp only [List.cons_append] at hstep hdrop ⊢
              simp only [decodeNestedF]
              rw [if_neg (by omega)]
              rw [hstep]
              simp only [hdrop, hq]
              simp [he, List.length_append, List.length_cons]
              omega

/-- Round trip for the single-item decoder wrapper: decoding an item's encoding
followed by any continuation with a non-`0xFF` head returns the item and its
encoded length. -/
theorem decode_encode_item (v : Value) (hv : wfV v = true) (s : List Nat)
    (hs : FdbTuple.TailOk s) :
    decode (Value.encode v ++ s) = .ok (v, (Value.encode v).length) := by
  unfold decode
  exact (roundtrip_main (2 * ((Value.encode v ++ s)).length + 1)).1 v s hv hs (by omega)

theorem tailOk_flat (A : List Value) (hA : wfL A = true) :
    FdbTuple.TailOk ((A.map Value.encode).flatten) := by
  have h := tailOk_flatten A hA [] trivial
  simpa using h

theorem decodeEsc_bound : ∀ (buf p : List Nat) (k : Nat),
    decodeEsc buf = .ok (p, k) → 1 ≤ k ∧ k ≤ buf.length
  | [], p, k => by simp [decodeEsc]
  | c :: rest, p, k => by
      intro h
      by_cases hc : c = 0
      · subst hc
        cases rest with
        | nil =>
            simp [decodeEsc] at h
            simp only [List.length_cons, List.length_nil]
            omega
        | cons r rest2 =>
            by_cases hr : r = 255
            · subst hr
              simp only [decodeEsc, if_pos rfl] at h
              cases hesc : decodeEsc rest2 with
              | error e => rw [hesc] at h; simp at h
              | ok pk =>
                  obtain ⟨p', k'⟩ := pk
                  have hb := decodeEsc_bound rest2 p' k' hesc
                  rw [hesc] at h
                  simp at h
                  simp only [List.length_cons]
                  omega
            · simp [decodeEsc, hr] at h
              simp only [List.length_cons]
              omega
      · rw [decodeEsc.eq_def] at h
        simp only [if_neg hc] at h
        cases hesc : decodeEsc rest with
        | error e => rw [hesc] at h; simp at h
        | ok pk =>
            obtain ⟨p', k'⟩ := pk
            have hb := decodeEsc_bound rest p' k' hesc
            rw [hesc] at h
            simp at h
            simp only [List.length_cons]
            omega

/-- Progress: every successful decode consumes at least one byte and at most the
whole buffer, at any fuel. -/
theorem prog_main : ∀ f : Nat,
    (∀ (buf : List Nat) (v : Value) (k : Nat), decodeItemF f buf = .ok (v, k) →
      1 ≤ k ∧ k ≤ buf.length) ∧
    (∀ (buf : List Nat) (vs : List Value) (k : Nat), decodeNestedF f buf = .ok (vs, k) →
      1 ≤ k ∧ k ≤ buf.length) := by
  intro f
  induction f with
  | zero =>
      constructor
      · intro buf v k h
        cases buf <;> simp [decodeItemF] at h
      · intro buf vs k h
        cases buf <;> simp [decodeNestedF] at h
  | succ f ih =>
      obtain ⟨ih1, ih2⟩ := ih
      constructor
      · intro buf v k h
        cases buf with
        | nil => simp [decodeItemF] at h
        | cons c rest =>
            simp only [decodeItemF] at h
            simp only [List.length_cons]
            by_cases h0 : c = 0
            · rw [if_pos h0] at h
              simp at h
              omega
            · rw [if_neg h0] at h
              by_cases h1 : c = 1
              · rw [if_pos h1] at h
                cases hesc : decodeEsc rest with
                | error e => rw [hesc] at h; simp at h
                | ok pk =>
                    obtain ⟨p', k'⟩ := pk
                    have hb := decodeEsc_bound rest p' k' hesc
                    rw [hesc] at h
                    simp at h
                    omega
              · rw [if_neg h1] at h
                by_cases h2 : c = 2
                · rw [if_pos h2] at h
                  cases hesc : decodeEsc rest with
                  | error e => rw [hesc] at h; simp at h
                  | ok pk =>
                      obtain ⟨p', k'⟩ := pk
                      have hb := decodeEsc_bound rest p' k' hesc
                      rw [hesc] at h
                      simp at h
                      omega
                · rw [if_neg h2] at h
                  by_cases h5 : c = 5
                  · rw [if_pos h5] at h
                    cases hn : decodeNestedF f rest with
                    | error e => rw [hn] at h; simp at h
                    | ok vk =>
                        obtain ⟨vs', k'⟩ := vk
                        have hb := ih2 rest vs' k' hn
                        rw [hn] at h
                        simp at h
                        omega
                  · rw [if_neg h5] at h
                    by_cases h20 : c = 20
                    · rw [if_pos h20] at h
                      simp at h
                      omega
                    · rw [if_neg h20] at h
                      by_cases hpos : 20 < c ∧ c ≤ 28
                      · rw [if_pos hpos] at h
                        by_cases hl : rest.length < c - 20
                        · rw [if_pos hl] at h
                          simp at h
                        · rw [if_neg hl] at h
                          simp at h
                          omega
                      · rw [if_neg hpos] at h
                        by_cases hneg : 12 ≤ c ∧ c < 20
                        · rw [if_pos hneg] at h
                          by_cases hl : rest.length < 20 - c
                          · rw [if_pos hl] at h
                            simp at h
                          · rw [if_neg hl] at h
                            simp at h
                            omega
                        · rw [if_neg hneg] at h
                          simp at h
      · intro buf vs k h
        cases buf with
        | nil => simp [decodeNestedF] at h
        | cons c rest =>
            simp only [decodeNestedF] at h
            simp only [List.length_cons]
            by_cases h0 : c = 0
            · rw [if_pos h0] at h
              cases rest with
              | nil =>
                  simp at h
                  omega
              | cons r rest2 =>
                  by_cases hr : r = 255
                  · rw [hr] at h
                    simp only [if_pos rfl] at h
                    cases hn : decodeNestedF f rest2 with
                    | error e => rw [hn] at h; simp at h
                    | ok vk =>
                        obtain ⟨vs', k'⟩ := vk
                        have hb := ih2 rest2 vs' k' hn
                        rw [hn] at h
                        simp at h
                        simp only [List.length_cons]
                        omega
                  · simp only [if_neg hr] at h
                    simp at h
                    omega
            · rw [if_neg h0] at h
              cases hi : decodeItemF f (c :: rest) with
              | error e => rw [hi] at h; simp at h
              | ok vk =>
                  obtain ⟨v1, k1⟩ := vk
                  have hb1 := ih1 (c :: rest) v1 k1 hi
                  rw [hi] at h
                  have h9 : (match decodeNestedF f ((c :: rest).drop k1) with
                      | Except.error e => (Except.error e : Except Error (List Value × Nat))
                      | Except.ok (vs2, k2) => Except.ok (v1 :: vs2, k1 + k2)) =
                      Except.ok (vs, k) := h
                  cases hn : decodeNestedF f ((c :: rest).drop k1) with
                  | error e => rw [hn] at h9; simp at h9
                  | ok vk2 =>
                      obtain ⟨vs2, k2⟩ := vk2
                      have hb2 := ih2 _ vs2 k2 hn
                      rw [hn] at h9
                      simp at h9
                      rw [List.length_drop] at hb2
                      simp only [List.length_cons] at hb1 hb2
                      omega

/-- Progress for the single-item decoder wrapper. -/
theorem decode_bound (buf : List Nat) (v : Value) (k : Nat)
    (h : decode buf = .ok (v, k)) : 1 ≤ k ∧ k ≤ buf.length := by
  unfold decode at h
  exact (prog_main _).1 buf v k h

theorem encInt_length (i : Int) : (encInt i).length = 1 + byteLen i.natAbs := by
  rcases lt_trichotomy i 0 with h | h | h
  · rw [encInt_neg i h]
    simp [beBytes_length]
    omega
  · subst h
    simp [encInt, byteLen]
  · rw [encInt_pos i h]
    simp [beBytes_length]
    omega

/-- Integer encodings of distinct representable integers are distinct. -/
theorem encInt_inj (i j : Int) (hi : i.natAbs < 256 ^ 8) (hj : j.natAbs < 256 ^ 8)
    (h : encInt i = encInt j) : i = j := by
  have h1 := encInt_compare i j hi hj [] []
  rw [h, lexLtB_irrefl] at h1
  have h2 := encInt_compare j i hj hi [] []
  rw [← h, lexLtB_irrefl] at h2
  simp [lexLtB] at h1 h2
  omega

end item

/-- The aggregate decode loop's result does not depend on the fuel, once the fuel
is at least the buffer length: this is the termination argument for the
`while !data.is_empty()` loop of `Value::decode`. -/
theorem decodeF_stable : ∀ (L : Nat) (buf : List Nat), buf.length ≤ L →
    ∀ f g : Nat, buf.length ≤ f → buf.length ≤ g →
    Value.decodeF f buf = Value.decodeF g buf := by
  intro L
  induction L with
  | zero =>
      intro buf hL f g _ _
      have hb : buf = [] := by
        cases buf with
        | nil => rfl
        | cons c r => simp at hL
      subst hb
      cases f <;> cases g <;> simp [Value.decodeF]
  | succ L ihL =>
      intro buf hL f g hf hg
      cases buf with
      | nil => cases f <;> cases g <;> simp [Value.decodeF]
      | cons c rest =>
          simp only [List.length_cons] at hL hf hg
          obtain ⟨f', rfl⟩ : ∃ f', f = f' + 1 := by
            cases f with
            | zero => omega
            | succ f' => exact ⟨f', rfl⟩
          obtain ⟨g', rfl⟩ : ∃ g', g = g' + 1 := by
            cases g with
            | zero => omega
            | succ g' => exact ⟨g', rfl⟩
          simp only [Value.decodeF]
          cases hi : item.decode (c :: rest) with
          | error e => rfl
          | ok vk =>
              obtain ⟨v, k⟩ := vk
              have hb := item.decode_bound _ _ _ hi
              simp only [List.length_cons] at hb
              have hrec : Value.decodeF f' ((c :: rest).drop k) =
                  Value.decodeF g' ((c :: rest).drop k) := by
                apply ihL ((c :: rest).drop k) _ f' g' <;>
                  (rw [List.length_drop]; simp only [List.length_cons]; omega)
              show (match Value.decodeF f' ((c :: rest).drop k) with
                  | Except.error e => (Except.error e : Except Error Value)
                  | Except.ok vs => Except.ok (v :: vs)) =
                (match Value.decodeF g' ((c :: rest).drop k) with
                  | Except.error e => Except.error e
                  | Except.ok vs => Except.ok (v :: vs))
              rw [hrec]

/-- One unfolding step of `Value::decode` on a non-empty buffer. -/
theorem decode_step (c : Nat) (rest : List Nat) (v : item.Value) (k : Nat)
    (hi : item.decode (c :: rest) = .ok (v, k)) :
    Value.decode (c :: rest) =
      match Value.decode ((c :: rest).drop k) with
      | .error e => .error e
      | .ok vs => .ok (v :: vs) := by
  have hb := item.decode_bound _ _ _ hi
  simp only [List.length_cons] at hb
  unfold Value.decode
  simp only [List.length_cons, Value.decodeF]
  rw [hi]
  show (match Value.decodeF rest.length ((c :: rest).drop k) with
      | Except.error e => (Except.error e : Except Error Value)
      | Except.ok vs => Except.ok (v :: vs)) = _
  rw [show Value.decodeF rest.length ((c :: rest).drop k) =
      Value.decodeF ((c :: rest).drop k).length ((c :: rest).drop k) from
    decodeF_stable ((c :: rest).drop k).length _ (le_refl _) _ _
      (by rw [List.length_drop]; simp only [List.length_cons]; omega) (le_refl _)]

/-- One error-unfolding step of `Value::decode` on a non-empty buffer. -/
theorem decode_step_err (c : Nat) (rest : List Nat) (e : Error)
    (hi : item.decode (c :: rest) = .error e) :
    Value.decode (c :: rest) = .error e := by
  unfold Value.decode
  simp only [List.length_cons, Value.decodeF]
  rw [hi]

/-- Aggregate decoding either succeeds or fails with the error of the first
malformed item: if it fails with `e`, some prefix of `n` items decodes
successfully consuming `k` bytes, and the item decoder fails with exactly `e`
at offset `k`. -/
theorem decode_first_error_aux : ∀ (L : Nat) (buf : List Nat), buf.length ≤ L →
    (∃ vs : Value, Value.decode buf = .ok vs) ∨
    (∃ (e : Error) (n : Nat) (vs : List item.Value) (k : Nat),
      Value.decode buf = .error e ∧ decodeN n buf = .ok (vs, k) ∧
      item.decode (buf.drop k) = .error e) := by
  intro L
  induction L with
  | zero =>
      intro buf hL
      have hb : buf = [] := by
        cases buf with
        | nil => rfl
        | cons c r => simp at hL
      subst hb
      exact Or.inl ⟨[], rfl⟩
  | succ L ihL =>
      intro buf hL
      cases buf with
      | nil => exact Or.inl ⟨[], rfl⟩
      | cons c rest =>
          simp only [List.length_cons] at hL
          cases hi : item.decode (c :: rest) with
          | error e =>
              right
              refine ⟨e, 0, [], 0, decode_step_err c rest e hi, rfl, ?_⟩
              simpa using hi
          | ok vk =>
              obtain ⟨v, k⟩ := vk
              have hb := item.decode_bound _ _ _ hi
              simp only [List.length_cons] at hb
              have hstep := decode_step c rest v k hi
              have hL' : ((c :: rest).drop k).length ≤ L := by
                rw [List.length_drop]
                simp only [List.length_cons]
                omega
              rcases ihL ((c :: rest).drop k) hL' with ⟨vs, hok⟩ | hfail
              · left
                refine ⟨v :: vs, ?_⟩
                rw [hstep, hok]
              · obtain ⟨e, n, vs, k2, herr, hN, hitem⟩ := hfail
                right
                refine ⟨e, n + 1, v :: vs, k + k2, ?_, ?_, ?_⟩
                · rw [hstep, herr]
                · simp only [decodeN]
                  rw [hi]
                  show (match decodeN n ((c :: rest).drop k) with
                      | Except.error e => (Except.error e : Except Error (List item.Value × Nat))
                      | Except.ok (vs2, k2) => Except.ok (v :: vs2, k + k2)) = _
                  rw [hN]
                · rw [List.drop_drop] at hitem
                  exact hitem

/-- If `n` fields decode but `k < buf.length` bytes were consumed, the
fixed-arity decoder rejects the buffer with `InvalidData`. -/
theorem decodeN_decodeFixed : ∀ (n : Nat) (buf : List Nat) (vs : List item.Value) (k : Nat),
    decodeN n buf = .ok (vs, k) → k < buf.length →
    decodeFixed n buf = .error .InvalidData := by
  intro n
  induction n with
  | zero =>
      intro buf vs k h hk
      have hbne : ¬ buf = [] := by
        intro hb
        subst hb
        simp at hk
      simp [decodeFixed, hbne]
  | succ n ihn =>
      intro buf vs k h hk
      simp only [decodeN] at h
      cases hi : item.decode buf with
      | error e => rw [hi] at h; simp at h
      | ok vk =>
          obtain ⟨v, k1⟩ := vk
          have hb := item.decode_bound _ _ _ hi
          rw [hi] at h
          have h9 : (match decodeN n (buf.drop k1) with
              | Except.error e => (Except.error e : Except Error (List item.Value × Nat))
              | Except.ok (vs2, k2) => Except.ok (v :: vs2, k1 + k2)) = Except.ok (vs, k) := h
          cases hN : decodeN n (buf.drop k1) with
          | error e => rw [hN] at h9; simp at h9
          | ok vk2 =>
              obtain ⟨vs2, k2⟩ := vk2
              rw [hN] at h9
              simp at h9
              obtain ⟨hvs, hkk⟩ := h9
              have hk2 : k2 < (buf.drop k1).length := by
                rw [List.length_drop]
                omega
              have hfix := ihn (buf.drop k1) vs2 k2 hN hk2
              simp only [decodeFixed]
              rw [hi]
              show (match decodeFixed n (buf.drop k1) with
                  | Except.error e => (Except.error e : Except Error (List item.Value))
                  | Except.ok vs => Except.ok (v :: vs)) = _
              rw [hfix]

/-- Top-level order preservation: for well-formed item sequences, byte-wise
comparison of the concatenated encodings computes the natural component-wise
order on the sequences. -/
theorem encT_compare : ∀ (A B : List item.Value), item.wfL A = true → item.wfL B = true →
    item.lexLtB ((A.map item.Value.encode).flatten) ((B.map item.Value.encode).flatten) =
      item.ltL A B
  | [], [], _, _ => rfl
  | [], b :: B', _, hB => by
      have hvb : item.wfV b = true := by
        simp only [item.wfL, Bool.and_eq_true] at hB
        exact hB.1
      obtain ⟨tg, tl, he, h1, h2⟩ := item.encode_head b hvb
      simp [he, item.lexLtB, item.ltL]
  | a :: A', [], hA, _ => by
      have hva : item.wfV a = true := by
        simp only [item.wfL, Bool.and_eq_true] at hA
        exact hA.1
      obtain ⟨tg, tl, he, h1, h2⟩ := item.encode_head a hva
      simp [he, item.lexLtB, item.ltL]
  | a :: A', b :: B', hA, hB => by
      have hva : item.wfV a = true := by
        simp only [item.wfL, Bool.and_eq_true] at hA
        exact hA.1
      have hA' : item.wfL A' = true := by
        simp only [item.wfL, Bool.and_eq_true] at hA
        exact hA.2
      have hvb : item.wfV b = true := by
        simp only [item.wfL, Bool.and_eq_true] at hB
        exact hB.1
      have hB' : item.wfL B' = true := by
        simp only [item.wfL, Bool.and_eq_true] at hB
        exact hB.2
      have hmain := (item.compare_main (sizeOf a + sizeOf b)).1 a b (le_refl _) hva hvb
        ((A'.map item.Value.encode).flatten) ((B'.map item.Value.encode).flatten)
        (item.tailOk_flat A' hA') (item.tailOk_flat B' hB')
      have hrec := encT_compare A' B' hA' hB'
      simp only [List.map_cons, List.flatten_cons]
      rw [hmain, hrec]
      simp [item.ltL]


theorem encode_foldl_eq (A : List item.Value) : ∀ acc : List Nat,
    A.foldl (fun acc x => acc ++ x.encode) acc = acc ++ (A.map item.Value.encode).flatten := by
  induction A with
  | nil => intro acc; simp
  | cons a A' ihA =>
      intro acc
      simp [List.foldl_cons, ihA]

/-- The aggregate encoder is the in-order concatenation of the item encodings. -/
theorem encode_flatten (A : Value) :
    Value.encode A = (List.map item.Value.encode A).flatten := by
  have h := encode_foldl_eq A []
  simpa [Value.encode] using h

/-- The fixed-arity encoder is the in-order concatenation of the field encodings. -/
theorem encodeFixed_flatten (A : List item.Value) :
    encodeFixed A = (A.map item.Value.encode).flatten := by
  have h := encode_foldl_eq A []
  simpa [encodeFixed] using h

theorem decodeF_flatten : ∀ (A : List item.Value) (fuel : Nat), item.wfL A = true →
    ((A.map item.Value.encode).flatten).length ≤ fuel →
    Value.decodeF fuel ((A.map item.Value.encode).flatten) = .ok A
  | [], fuel, _, _ => by
      cases fuel <;> simp [Value.decodeF]
  | a :: A', fuel, hA, hlen => by
      have hva : item.wfV a = true := by
        simp only [item.wfL, Bool.and_eq_true] at hA
        exact hA.1
      have hA' : item.wfL A' = true := by
        simp only [item.wfL, Bool.and_eq_true] at hA
        exact hA.2
      obtain ⟨tg, tl, he, h1, h2⟩ := item.encode_head a hva
      have hp : 1 ≤ (item.Value.encode a).length := by
        rw [he]
        simp
      cases fuel with
      | zero =>
          exfalso
          simp only [List.map_cons, List.flatten_cons, List.length_append] at hlen
          omega
      | succ g =>
          have hitem : item.decode (item.Value.encode a ++ (A'.map item.Value.encode).flatten)
              = .ok (a, (item.Value.encode a).length) :=
            item.decode_encode_item a hva _ (item.tailOk_flat A' hA')
          have hdrop : ((item.Value.encode a ++ (A'.map item.Value.encode).flatten)).drop
              (item.Value.encode a).length = (A'.map item.Value.encode).flatten :=
            List.drop_left _ _
          have hrec : Value.decodeF g ((A'.map item.Value.encode).flatten) = .ok A' := by
            apply decodeF_flatten A' g hA'
            simp only [List.map_cons, List.flatten_cons, List.length_append] at hlen
            omega
          simp only [List.map_cons, List.flatten_cons]
          rw [he] at hitem hdrop ⊢
          simp only [List.cons_append] at hitem hdrop ⊢
          simp only [Value.decodeF]
          rw [hitem]
          simp only [hdrop, hrec]

/-- Aggregate round trip: `Value::decode` of `Value::encode` returns the original
item sequence. -/
theorem decode_encode_tuple (A : Value) (hA : item.wfL A = true) :
    Value.decode (Value.encode A) = .ok A := by
  unfold Value.decode
  rw [encode_flatten A]
  exact decodeF_flatten A _ hA (le_refl _)

theorem decodeFixed_flatten : ∀ (A : List item.Value), item.wfL A = true →
    decodeFixed A.length ((A.map item.Value.encode).flatten) = .ok A
  | [], _ => by simp [decodeFixed]
  | a :: A', hA => by
      have hva : item.wfV a = true := by
        simp only [item.wfL, Bool.and_eq_true] at hA
        exact hA.1
      have hA' : item.wfL A' = true := by
        simp only [item.wfL, Bool.and_eq_true] at hA
        exact hA.2
      have hitem : item.decode (item.Value.encode a ++ (A'.map item.Value.encode).flatten)
          = .ok (a, (item.Value.encode a).length) :=
        item.decode_encode_item a hva _ (item.tailOk_flat A' hA')
      have hdrop : ((item.Value.encode a ++ (A'.map item.Value.encode).flatten)).drop
          (item.Value.encode a).length = (A'.map item.Value.encode).flatten :=
        List.drop_left _ _
      have hrec := decodeFixed_flatten A' hA'
      simp only [List.map_cons, List.flatten_cons, List.length_cons]
      simp only [decodeFixed]
      rw [hitem]
      simp only [hdrop, hrec]

/-! The claim theorems.  Each claim of the specification is stated over the
definitions above and proved (with a concrete witness where the statement
carries hypotheses). -/

/-- C1: for every representable tuple value `V`, decoding the bytes produced by
encoding `V` yields back exactly `V`: for the aggregate tuple codec
(`Value::decode` of `Value::encode`) and for every fixed-arity tuple decode of
arity 1 through 12 applied to the fixed-arity encoding. -/
theorem claim_roundTrip (V : Value) (h : item.wfL V = true) :
    Value.decode (Value.encode V) = .ok V ∧
    (∀ n : Nat, 1 ≤ n → n ≤ 12 → List.length V = n →
      decodeFixed n (encodeFixed V) = .ok V) := by
  constructor
  · exact decode_encode_tuple V h
  · intro n _ _ hlen
    rw [encodeFixed_flatten, ← hlen]
    exact decodeFixed_flatten V h

theorem claim_roundTrip_witness :
    item.wfL [.nested [.unit, .int (-300)], .bytes [0, 255], .text [104]] = true ∧
    Value.decode (Value.encode [.nested [.unit, .int (-300)], .bytes [0, 255], .text [104]]) =
      .ok [.nested [.unit, .int (-300)], .bytes [0, 255], .text [104]] ∧
    decodeFixed 3 (encodeFixed [.nested [.unit, .int (-300)], .bytes [0, 255], .text [104]]) =
      .ok [.nested [.unit, .int (-300)], .bytes [0, 255], .text [104]] :=
  ⟨by decide,
   (claim_roundTrip [.nested [.unit, .int (-300)], .bytes [0, 255], .text [104]] (by decide)).1,
   (claim_roundTrip [.nested [.unit, .int (-300)], .bytes [0, 255], .text [104]] (by decide)).2
     3 (by norm_num) (by norm_num) (by decide)⟩

/-- C2: for well-formed tuple values `A` and `B`, the encoded byte string of `A`
is lexicographically below that of `B` exactly when `A` is below `B` in the
natural component-wise order of the value variants (`ltL`): the two Boolean
comparisons are equal, which gives the if-and-only-if claim. -/
theorem claim_orderPreservation (A B : Value) (hA : item.wfL A = true)
    (hB : item.wfL B = true) :
    item.lexLtB (Value.encode A) (Value.encode B) = item.ltL A B := by
  rw [encode_flatten A, encode_flatten B]
  exact encT_compare A B hA hB

theorem claim_orderPreservation_witness :
    item.wfL [.int (-300), .text [104, 105]] = true ∧
    item.wfL [.int 5] = true ∧
    item.lexLtB (Value.encode [.int (-300), .text [104, 105]]) (Value.encode [.int 5]) =
      item.ltL [.int (-300), .text [104, 105]] [.int 5] ∧
    item.ltL [.int (-300), .text [104, 105]] [.int 5] = true :=
  ⟨by decide, by decide,
   claim_orderPreservation [.int (-300), .text [104, 105]] [.int 5] (by decide) (by decide),
   by decide⟩

/-- C3: for every arity `n` between 1 and 12, if all `n` fields decode
successfully from a buffer (`decodeN`) but the consumed length `k` leaves bytes
behind (`k < buf.length`), the fixed-arity decode fails with `InvalidData`. -/
theorem claim_trailingBytes (n : Nat) (buf : List Nat) (vs : List item.Value) (k : Nat)
    (_h1 : 1 ≤ n) (_h2 : n ≤ 12) (h3 : decodeN n buf = .ok (vs, k)) (h4 : k < buf.length) :
    decodeFixed n buf = .error .InvalidData :=
  decodeN_decodeFixed n buf vs k h3 h4

theorem claim_trailingBytes_witness :
    (1 ≤ 1 ∧ (1:Nat) ≤ 12 ∧ decodeN 1 [20, 20] = .ok ([.int 0], 1) ∧ 1 < [20, 20].length) ∧
    decodeFixed 1 [20, 20] = .error .InvalidData :=
  ⟨⟨by norm_num, by norm_num, by decide, by decide⟩,
   claim_trailingBytes 1 [20, 20] [.int 0] 1 (by norm_num) (by norm_num) (by decide) (by decide)⟩

/-- C4: aggregate tuple decoding either returns the full decoded sequence, or
returns exactly the error produced by the first malformed item: some prefix of
`n` items decodes successfully consuming `k` bytes and the item decoder fails
with that same error at offset `k`.  In particular no partial sequence is ever
returned alongside or instead of an error. -/
theorem claim_firstError (buf : List Nat) :
    (∃ vs : Value, Value.decode buf = .ok vs) ∨
    (∃ (e : Error) (n : Nat) (vs : List item.Value) (k : Nat),
      Value.decode buf = .error e ∧ decodeN n buf = .ok (vs, k) ∧
      item.decode (buf.drop k) = .error e) :=
  decode_first_error_aux buf.length buf (le_refl _)

/-- C5: aggregate tuple encoding is total and equals the in-order concatenation
of the individual item encodings, with no separator bytes between items. -/
theorem claim_encodeConcat (V : Value) :
    Value.encode V = (List.map item.Value.encode V).flatten :=
  encode_flatten V

/-- C6: the integer encoder emits exactly the minimal number of magnitude bytes
(`byteLen`, which is minimal among all byte counts that can represent the
magnitude), and the integer encoding is injective on representable integers. -/
theorem claim_intMinimal (i : Int) (h : i.natAbs < 256 ^ 8) :
    ((item.encInt i).length = 1 + item.byteLen i.natAbs ∧
      i.natAbs < 256 ^ item.byteLen i.natAbs ∧
      (∀ n : Nat, i.natAbs < 256 ^ n → item.byteLen i.natAbs ≤ n)) ∧
    (∀ j : Int, j.natAbs < 256 ^ 8 → item.encInt i = item.encInt j → i = j) := by
  refine ⟨⟨item.encInt_length i, item.byteLen_upper _ h,
    fun n hn => item.byteLen_min _ n hn⟩, ?_⟩
  intro j hj heq
  exact item.encInt_inj i j h hj heq

theorem claim_intMinimal_witness :
    (300 : Int).natAbs < 256 ^ 8 ∧
    (item.encInt 300).length = 1 + item.byteLen (300 : Int).natAbs ∧
    (item.encInt 300 = item.encInt 299 → (300 : Int) = 299) :=
  ⟨by decide,
   ((claim_intMinimal 300 (by decide)).1).1,
   fun heq => (claim_intMinimal 300 (by decide)).2 299 (by decide) heq⟩

/-- C7: an integer tag `20 + n` or `20 - n` (demanding `n` payload bytes)
followed by fewer than `n` bytes fails with the `EOF` ("unexpected end of
input") kind; the tag `22 = ZERO_TAG + 2` (resp. `18 = ZERO_TAG - 2`) followed
by exactly 2 payload bytes decodes successfully. -/
theorem claim_truncation (n : Nat) (rest : List Nat) (h1 : 1 ≤ n) (h2 : n ≤ 8)
    (h3 : rest.length < n) :
    (item.decode ((20 + n) :: rest) = .error .EOF ∧
     item.decode ((20 - n) :: rest) = .error .EOF) ∧
    (∀ a b : Nat, item.decode [22, a, b] = .ok (.int (a * 256 + b), 3) ∧
      item.decode [18, a, b] = .ok (.int (((a * 256 + b : Nat) : Int) - 65535), 3)) := by
  constructor
  · constructor
    · unfold item.decode
      simp only [List.length_cons, item.decodeItemF]
      rw [if_neg (by omega), if_neg (by omega), if_neg (by omega), if_neg (by omega),
        if_neg (by omega), if_pos (show 20 < 20 + n ∧ 20 + n ≤ 28 from by omega)]
      rw [if_pos (by omega)]
    · unfold item.decode
      simp only [List.length_cons, item.decodeItemF]
      rw [if_neg (by omega), if_neg (by omega), if_neg (by omega), if_neg (by omega),
        if_neg (by omega), if_neg (by omega),
        if_pos (show 12 ≤ 20 - n ∧ 20 - n < 20 from by omega)]
      rw [if_pos (by omega)]
  · intro a b
    constructor
    · unfold item.decode
      simp only [List.length_cons, List.length_nil, item.decodeItemF]
      norm_num
      simp [item.beVal]
    · unfold item.decode
      simp only [List.length_cons, List.length_nil, item.decodeItemF]
      norm_num
      simp [item.beVal]

theorem claim_truncation_witness :
    (1 ≤ 2 ∧ (2:Nat) ≤ 8 ∧ [(0:Nat)].length < 2) ∧
    item.decode [22, 0] = .error .EOF ∧
    item.decode [18, 0] = .error .EOF ∧
    item.decode [22, 0, 0] = .ok (.int 0, 3) :=
  ⟨⟨by norm_num, by norm_num, by decide⟩,
   (claim_truncation 2 [0] (by norm_num) (by norm_num) (by decide)).1.1,
   (claim_truncation 2 [0] (by norm_num) (by norm_num) (by decide)).1.2,
   by decide⟩

/-- C8: decoding the single-byte buffer `[ZERO_TAG] = [20]` as an item succeeds,
yields the integer 0, and reports exactly 1 byte consumed. -/
theorem claim_zeroDecode : item.decode [20] = .ok (.int 0, 1) := by decide

/-- C9: encoding the pair (text "hello", bytes "world") produces exactly the
byte sequence `[2, 'h','e','l','l','o', 0, 1, 'w','o','r','l','d', 0]`, and
decoding that sequence as a 2-tuple reproduces the original pair. -/
theorem claim_helloWorld :
    encodeFixed [.text [104, 101, 108, 108, 111], .bytes [119, 111, 114, 108, 100]] =
      [2, 104, 101, 108, 108, 111, 0, 1, 119, 111, 114, 108, 100, 0] ∧
    decodeFixed 2 [2, 104, 101, 108, 108, 111, 0, 1, 119, 111, 114, 108, 100, 0] =
      .ok [.text [104, 101, 108, 108, 111], .bytes [119, 111, 114, 108, 100]] := by
  constructor <;> decide

/-- C10: aggregate tuple decoding terminates on every buffer: every successful
item decode consumes at least 1 byte (and at most the buffer), so the decode
loop's result is independent of the fuel once the fuel reaches the buffer
length, and decoding the empty buffer immediately returns the empty sequence. -/
theorem claim_termination (buf : List Nat) (f g : Nat) (hf : buf.length ≤ f)
    (hg : buf.length ≤ g) :
    (∀ (v : item.Value) (k : Nat), item.decode buf = .ok (v, k) → 1 ≤ k ∧ k ≤ buf.length) ∧
    Value.decodeF f buf = Value.decodeF g buf ∧
    Value.decode [] = .ok [] :=
  ⟨fun v k h => item.decode_bound buf v k h,
   decodeF_stable buf.length buf (le_refl _) f g hf hg, rfl⟩

theorem claim_termination_witness :
    ([20, 20].length ≤ 2 ∧ [20, 20].length ≤ 7) ∧
    Value.decodeF 2 [20, 20] = Value.decodeF 7 [20, 20] ∧
    Value.decode [] = .ok [] :=
  ⟨⟨by decide, by decide⟩,
   (claim_termination [20, 20] 2 7 (by decide) (by decide)).2.1,
   (claim_termination [20, 20] 2 7 (by decide) (by decide)).2.2⟩

end FdbTuple
